import Mathlib

/-!
# k8split: splitting a multi-document YAML stream into one file per document

A shallow embedding of `main.go`.  The YAML library, the file system and the
Unicode case tables are outside the repository; they enter the model as the
fields of `Env` (for the loop of `cmd.Run`) and of `Cli` (for argument
validation and input acquisition).

Go strings are modelled by `String`, Go `int` counters by `Nat`: the input is
read into one byte slice, so the number of documents of a run stays far below
the range of a 64-bit `int` and no counter of the program can wrap.
-/

namespace K8split

/-! ## Data model -/

/-- Dynamic values held by an `interface{}` after YAML decoding. -/
inductive Value where
  | null
  | bool (b : Bool)
  | int (n : Int)
  | float (bits : Nat)
  | str (s : String)
  | seq (xs : List Value)
  | map (kvs : List (String × Value))
  | anyMap (kvs : List (Value × Value))

/-- A decoded document, `map[string]interface{}`, as the list of its entries; an index
expression reads the first entry of the key, and the list is empty exactly when the map has
no key. -/
abbrev Record := List (String × Value)

/-- Index expression `data[key]`; `none` is the nil interface of a missing key. -/
def Record.get (data : Record) (key : String) : Option Value :=
  List.lookup key data

/-- Type assertion `v.(string)`. -/
def asString : Option Value → Option String
  | some (.str s) => some s
  | _ => none

/-- Type assertion `v.(map[string]interface{})`. -/
def asMap : Option Value → Option Record
  | some (.map kvs) => some kvs
  | _ => none

/-- One result of `dec.Decode(&data)`: the record left in `data`, or the text of the error. -/
abbrev Doc := Except String Record

/-- The ways the process is terminated by `log.Fatal`/`log.Fatalf` in the loop. -/
inductive Fatal where
  | decode (i : Nat) (err : String)
  | marshal (i : Nat) (err : String)
  | noKind (i : Nat)
  | noMetadata (i : Nat)
  | noName (i : Nat)
  | write (err : String)
  deriving DecidableEq, Repr

/-- The name registry `names`, a `map[string]int`. -/
abbrev Names := List (String × Nat)

/-- Read `names[name]`; a missing key reads as the zero value. -/
def Names.get (names : Names) (name : String) : Nat :=
  (List.lookup name names).getD 0

/-- Assignment `names[name] = v`. -/
def Names.set : Names → String → Nat → Names
  | [], name, v => [(name, v)]
  | (k, w) :: rest, name, v =>
    if k = name then (k, v) :: rest else (k, w) :: Names.set rest name v

/-- External behaviour the loop of `cmd.Run` depends on. -/
structure Env where
  /-- The flag `outDir`. -/
  outDir : String
  /-- The library `yaml.Marshal`. -/
  marshal : Record → Except String String
  /-- The call `ioutil.WriteFile path content 0644`, given the files written before it;
  `some err` is a failed write. -/
  writeFile : List (String × String) → String → String → Option String
  /-- The table lookup `unicode.To(unicode.LowerCase, r)` for runes above ASCII. -/
  lowerTable : Char → Char

/-- The function `unicode.ToLower`. -/
def lowerRune (env : Env) (r : Char) : Char :=
  if r.toNat ≤ 127 then
    if 65 ≤ r.toNat ∧ r.toNat ≤ 90 then Char.ofNat (r.toNat + 32) else r
  else env.lowerTable r

/-- The function `strings.ToLower`. -/
def toLower (env : Env) (s : String) : String :=
  String.mk (s.data.map (lowerRune env))

/-- The verb `%d` applied to a counter. -/
def fmtInt (c : Nat) : String := Nat.repr c

/-- Lines 106-109: the file name for base-name `name` with count `c`. -/
def fileName (env : Env) (name : String) (c : Nat) : String :=
  if c = 0 then toLower env name ++ ".yaml"
  else toLower env name ++ "_" ++ fmtInt c ++ ".yaml"

/-- Lines 85-101: derive the base-name of document `i` from its record. -/
def deriveName (i : Nat) (data : Record) : Except Fatal String :=
  match asString (data.get "kind") with
  | none => .error (.noKind i)
  | some kind =>
    match asMap (data.get "metadata") with
    | none => .error (.noMetadata i)
    | some metadata =>
      match asString (metadata.get "name") with
      | none => .error (.noName i)
      | some n => .ok (kind ++ "-" ++ n)

/-- Program state of the loop: the registry, the index `i`, and the files written so far. -/
structure State where
  names : Names
  i : Nat
  written : List (String × String)
  deriving DecidableEq, Repr

/-- State at loop entry (lines 63-64). -/
def initState : State := ⟨[], 0, []⟩

/-- Effect of one pass through the loop body. -/
inductive Step where
  | next (s : State)
  | stop (s : State)
  | fatal (s : State) (e : Fatal)
  deriving DecidableEq, Repr

/-- Lines 67-117: one iteration, on the result `d` of `dec.Decode`. -/
def body (env : Env) (s : State) (d : Doc) : Step :=
  match d with
  | .error err =>
    if err = "EOF" then .stop s else .fatal s (.decode s.i err)
  | .ok data =>
    if data.length < 1 then .next s
    else
      match env.marshal data with
      | .error err => .fatal s (.marshal s.i err)
      | .ok p =>
        match deriveName s.i data with
        | .error e => .fatal s e
        | .ok name =>
          let c := Names.get s.names name
          let names := Names.set s.names name (c + 1)
          let fName := fileName env name c
          let path := env.outDir ++ "/" ++ fName
          match env.writeFile s.written path p with
          | some err => .fatal { s with names := names } (.write err)
          | none => .next ⟨names, s.i + 1, s.written ++ [(path, p)]⟩

/-- How a run ends. -/
inductive Outcome where
  | done
  | fatal (e : Fatal)
  deriving DecidableEq, Repr

/-- The state at exit and the way the run ended. -/
structure Result where
  final : State
  outcome : Outcome
  deriving DecidableEq, Repr

/-- The `for` loop of `cmd.Run` over the results of the decoder; after the last document
the decoder returns `io.EOF`, whose text is `EOF`, and the loop breaks. -/
def loop (env : Env) : List Doc → State → Result
  | [], s => ⟨s, .done⟩
  | d :: rest, s =>
    match body env s d with
    | .next s1 => loop env rest s1
    | .stop s1 => ⟨s1, .done⟩
    | .fatal s1 e => ⟨s1, .fatal e⟩

/-- Lines 61-118 of `Run`: the run on the results of the decoder. -/
def run (env : Env) (docs : List Doc) : Result :=
  loop env docs initState

/-- Paths of the files written by a run, in order. -/
def filesWritten (env : Env) (docs : List Doc) : List String :=
  (run env docs).final.written.map Prod.fst

/-! ## Argument validation and input acquisition -/

/-- External behaviour `cmd.Args` and `readFileOrExit` depend on. -/
structure Cli where
  /-- The error of `os.Stat(outDir)`, if any. -/
  outDirErr : Option String
  /-- Whether standard input is not a character device (`isInputFromPipe`). -/
  inputFromPipe : Bool
  /-- The error of `os.Stat(path)`, if any. -/
  statErr : String → Option String
  /-- The call `ioutil.ReadAll(os.Stdin)`. -/
  readStdin : Except String String
  /-- The calls `os.Open(path)` followed by `ioutil.ReadAll(file)`. -/
  readFile : String → Except String String

/-- How a callback of the command ends. -/
inductive Exit (α : Type) where
  | returned (a : α)
  | fatal (msg : String)
  | indexOutOfRange (index len : Nat)
  deriving DecidableEq, Repr

/-- The function `checkOutDir`. -/
def checkOutDir (cli : Cli) : Option String := cli.outDirErr

/-- The function `isInputFromPipe`. -/
def isInputFromPipe (cli : Cli) : Bool := cli.inputFromPipe

/-- Lines 28-49: the callback `Args`; `returned none` accepts the invocation,
`returned (some err)` rejects it with a usage error. -/
def Args (cli : Cli) (args : List String) : Exit (Option String) :=
  match checkOutDir cli with
  | some err => .fatal err
  | none =>
    if isInputFromPipe cli && decide (args.length > 0) then
      .fatal "stdin is a pipe but file also given"
    else if args.length > 1 then
      .fatal "unknown arguments"
    else
      match args[0]? with
      | none => .indexOutOfRange 0 args.length
      | some a0 =>
        match cli.statErr a0 with
        | some err => .returned (some ("unable to open file " ++ a0 ++ " - " ++ err))
        | none => .returned none

/-- Lines 127-150: the function `readFileOrExit`. -/
def readFileOrExit (cli : Cli) (filename : String) : Except String String :=
  if isInputFromPipe cli then cli.readStdin else cli.readFile filename

/-- Lines 51-119: the callback `Run`; `decoder` lists the results `yaml.NewDecoder` yields
on the input bytes. -/
def Run (cli : Cli) (env : Env) (decoder : String → List Doc) (args : List String) :
    Exit Result :=
  match args[0]? with
  | none => .indexOutOfRange 0 args.length
  | some a0 =>
    match readFileOrExit cli a0 with
    | .error err => .fatal err
    | .ok d => .returned (run env (decoder d))

/-! ## Notions used by the statements -/

/-- The base-name `kind-name` of a record with a string `kind` and a string `metadata.name`. -/
def baseName? (data : Record) : Option String :=
  match data.get "kind" with
  | some (.str kind) =>
    match data.get "metadata" with
    | some (.map metadata) =>
      match Record.get metadata "name" with
      | some (.str n) => some (kind ++ "-" ++ n)
      | _ => none
    | _ => none
  | _ => none

/-- A document that decodes to a record without keys. -/
def isEmptyDoc : Doc → Bool
  | .ok [] => true
  | _ => false

/-- The non-empty records of a stream, in input order. -/
def records : List Doc → List Record
  | [] => []
  | .ok (kv :: data) :: rest => (kv :: data) :: records rest
  | _ :: rest => records rest

/-- The base-names of the non-empty records of a stream, in input order. -/
def baseNames (docs : List Doc) : List String :=
  (records docs).filterMap baseName?

/-- The list holds the results the decoder yields before the end of the input: the
end-of-input error, whose text is `EOF`, is not among them. -/
def NoEof (docs : List Doc) : Prop := ∀ d ∈ docs, d ≠ .error "EOF"

/-- A stream element that decoded without error. -/
def Decoded (d : Doc) : Prop := ∃ data, d = .ok data

/-- A decoded document that is empty or carries a string `kind` and a string `metadata.name`. -/
def ValidDoc (d : Doc) : Prop :=
  ∃ data, d = .ok data ∧ (data = [] ∨ ∃ b, baseName? data = some b)

/-- Serialization succeeds on the records of the stream and no write fails. -/
def EnvOk (env : Env) (docs : List Doc) : Prop :=
  (∀ data ∈ records docs, ∃ p, env.marshal data = .ok p) ∧
  ∀ before path p, env.writeFile before path p = none

/-- The path written for base-name `b` when `c` earlier documents had the same base-name. -/
def pathFor (env : Env) (b : String) (c : Nat) : String :=
  env.outDir ++ "/" ++ fileName env b c

/-- The writes predicted for the non-empty records `rs`, after documents with the
base-names `seen`: each record gets the path of its base-name and occurrence count,
and its own serialization as content. -/
def expectedWrites (env : Env) : List String → List Record → List (String × String)
  | _, [] => []
  | seen, data :: rest =>
    match baseName? data, env.marshal data with
    | some b, .ok p => (pathFor env b (seen.count b), p) :: expectedWrites env (seen ++ [b]) rest
    | _, _ => []

/-- The index a fatal error names in its message, if it names one. -/
def Fatal.index? : Fatal → Option Nat
  | .decode i _ => some i
  | .marshal i _ => some i
  | .noKind i => some i
  | .noMetadata i => some i
  | .noName i => some i
  | .write _ => none

/-- The text passed to `log.Fatalf`/`log.Fatal`. -/
def Fatal.message : Fatal → String
  | .decode i err => "error reading yaml document " ++ fmtInt i ++ ": " ++ err
  | .marshal i err => "error creating yaml for document " ++ fmtInt i ++ ": " ++ err
  | .noKind i => "no `Kind` field specified for yaml document " ++ fmtInt i ++ " in this file."
  | .noMetadata i =>
    "no `Metadata` field specified for yaml document " ++ fmtInt i ++ " in this file."
  | .noName i =>
    "no `Metadata.name` field specified for yaml document " ++ fmtInt i ++ " in this file."
  | .write err => "error writing file: " ++ err

/-- State after the iteration that writes the document with base-name `b` and content `p`. -/
def State.advance (env : Env) (s : State) (b p : String) : State :=
  ⟨Names.set s.names b (Names.get s.names b + 1), s.i + 1,
    s.written ++ [(pathFor env b (Names.get s.names b), p)]⟩

/-- The paths predicted for documents with the base-names `ns`, after documents with the
base-names `seen`. -/
def assignPaths (env : Env) : List String → List String → List String
  | _, [] => []
  | seen, b :: rest => pathFor env b (seen.count b) :: assignPaths env (seen ++ [b]) rest

/-- Value of a string of decimal digits. -/
def decodeDigits (cs : List Char) : Nat :=
  cs.foldl (fun acc c => 10 * acc + (c.toNat - 48)) 0

/-- Field `key` of `data` is absent or not a string. -/
def NoString (data : Record) (key : String) : Prop :=
  data.get key = none ∨ ∃ v, data.get key = some v ∧ ∀ s, v ≠ .str s

/-- Field `key` of `data` is absent or not a key/value collection. -/
def NoMap (data : Record) (key : String) : Prop :=
  data.get key = none ∨ ∃ v, data.get key = some v ∧ ∀ m, v ≠ .map m

/-! ## Concrete inputs -/

/-- A manifest with `kind` and `metadata.name`. -/
def manifest (kind name : String) : Record :=
  [("kind", .str kind), ("metadata", .map [("name", .str name)])]

/-- An environment in which serialization and writes always succeed. -/
def plainEnv : Env where
  outDir := "out"
  marshal := fun _ => .ok "doc"
  writeFile := fun _ _ _ => none
  lowerTable := fun c => c

/-- Two manifests with the same kind and name. -/
def twoPods : List Doc := [.ok (manifest "Pod" "foo"), .ok (manifest "Pod" "foo")]

/-- Three manifests, the last named like the second file of the first two. -/
def suffixClash : List Doc :=
  [.ok (manifest "pod" "foo"), .ok (manifest "pod" "foo"), .ok (manifest "pod" "foo_1")]

/-- Manifests of two kinds, the first repeated after the second. -/
def mixedDocs : List Doc :=
  [.ok (manifest "Pod" "foo"), .ok (manifest "Service" "bar"), .ok (manifest "Pod" "foo")]

/-- Two manifests whose kinds differ in letter case only. -/
def caseClash : List Doc := [.ok (manifest "Pod" "foo"), .ok (manifest "pod" "foo")]

/-- An invocation with piped standard input and an existing output directory. -/
def pipedCli : Cli where
  outDirErr := none
  inputFromPipe := true
  statErr := fun _ => none
  readStdin := .ok "kind: Pod"
  readFile := fun _ => .error "no such file"

/-- A stream whose second document is empty and whose third lacks `kind`. -/
def skippedThenBad : List Doc :=
  [.ok (manifest "Pod" "foo"), .ok [], .ok [("metadata", .map [("name", .str "bar")])],
    .ok (manifest "Pod" "baz")]

/-! ## The registry -/

theorem Names.get_cons (k : String) (w : Nat) (rest : Names) (b : String) :
    Names.get ((k, w) :: rest) b = if b = k then w else Names.get rest b := by
  by_cases h : b = k
  · subst h
    simp [Names.get, List.lookup]
  · have hb : (b == k) = false := by simpa using h
    simp [Names.get, List.lookup, hb, h]

theorem Names.get_set (ns : Names) (n b : String) (v : Nat) :
    Names.get (Names.set ns n v) b = if b = n then v else Names.get ns b := by
  induction ns with
  | nil => simp only [Names.set, Names.get_cons]
  | cons kv rest ih =>
    obtain ⟨k, w⟩ := kv
    by_cases hk : k = n
    · subst hk
      by_cases hb : b = k <;> simp [Names.set, Names.get_cons, hb]
    · simp only [Names.set, hk, if_false, Names.get_cons, ih]
      by_cases hb : b = k
      · subst hb
        simp [hk]
      · simp [hb]

theorem Names.sum_set (ns : Names) (n : String) :
    ((Names.set ns n (Names.get ns n + 1)).map Prod.snd).sum = (ns.map Prod.snd).sum + 1 := by
  induction ns with
  | nil => simp [Names.set, Names.get]
  | cons kv rest ih =>
    obtain ⟨k, w⟩ := kv
    by_cases hk : k = n
    · subst hk
      simp [Names.set, Names.get_cons]
      omega
    · have hnk : ¬ n = k := fun h => hk h.symm
      have hg : Names.get ((k, w) :: rest) n = Names.get rest n := by
        simp [Names.get_cons, hnk]
      rw [hg]
      simp [Names.set, hk, ih]
      omega

/-! ## Name derivation -/

theorem asString_eq_some_iff (o : Option Value) (s : String) :
    asString o = some s ↔ o = some (.str s) := by
  cases o with
  | none => simp [asString]
  | some v => cases v <;> simp [asString]

theorem asMap_eq_some_iff (o : Option Value) (m : Record) :
    asMap o = some m ↔ o = some (.map m) := by
  cases o with
  | none => simp [asMap]
  | some v => cases v <;> simp [asMap]

theorem baseName?_eq_some_iff (data : Record) (b : String) :
    baseName? data = some b ↔
      ∃ (kind : String) (metadata : Record) (n : String),
        data.get "kind" = some (.str kind) ∧
        data.get "metadata" = some (.map metadata) ∧
        metadata.get "name" = some (.str n) ∧ b = kind ++ "-" ++ n := by
  unfold baseName?
  cases hk : data.get "kind" with
  | none => simp
  | some v =>
    cases v with
    | str kind =>
      cases hm : data.get "metadata" with
      | none => simp
      | some v2 =>
        cases v2 with
        | map metadata =>
          cases hn : Record.get metadata "name" with
          | none => simp [hn]
          | some v3 =>
            cases v3 with
            | str n =>
              simp only [hn, Option.some.injEq, Value.str.injEq, Value.map.injEq]
              constructor
              · intro h
                exact ⟨kind, metadata, n, rfl, rfl, hn, h.symm⟩
              · rintro ⟨kind2, metadata2, n2, rfl, rfl, h3, rfl⟩
                rw [hn] at h3
                simp only [Option.some.injEq, Value.str.injEq] at h3
                rw [h3]
            | _ => simp [hn]
        | _ => simp
    | _ => simp

theorem deriveName_eq_ok_iff (i : Nat) (data : Record) (b : String) :
    deriveName i data = .ok b ↔ baseName? data = some b := by
  rw [baseName?_eq_some_iff]
  unfold deriveName
  cases h1 : asString (data.get "kind") with
  | none =>
    simp only [reduceCtorEq, false_iff, not_exists]
    intro kind metadata n hk
    rw [(asString_eq_some_iff _ _).mpr hk.1] at h1
    simp at h1
  | some kind =>
    rw [asString_eq_some_iff] at h1
    cases h2 : asMap (data.get "metadata") with
    | none =>
      simp only [reduceCtorEq, false_iff, not_exists]
      intro kind2 metadata n hk
      rw [(asMap_eq_some_iff _ _).mpr hk.2.1] at h2
      simp at h2
    | some metadata =>
      rw [asMap_eq_some_iff] at h2
      cases h3 : asString (metadata.get "name") with
      | none =>
        simp only [h3, reduceCtorEq, false_iff, not_exists]
        intro kind2 metadata2 n hk
        obtain ⟨_, hm, hn, _⟩ := hk
        rw [h2] at hm
        simp only [Option.some.injEq, Value.map.injEq] at hm
        subst hm
        rw [(asString_eq_some_iff _ _).mpr hn] at h3
        simp at h3
      | some n =>
        simp only [h3]
        rw [asString_eq_some_iff] at h3
        simp only [Except.ok.injEq]
        constructor
        · intro h
          exact ⟨kind, metadata, n, h1, h2, h3, h.symm⟩
        · rintro ⟨kind2, metadata2, n2, hk, hm, hn, rfl⟩
          rw [h1] at hk
          rw [h2] at hm
          simp only [Option.some.injEq, Value.str.injEq, Value.map.injEq] at hk hm
          subst hk
          subst hm
          rw [h3] at hn
          simp only [Option.some.injEq, Value.str.injEq] at hn
          rw [hn]

/-! ## The loop body -/

theorem body_empty (env : Env) (s : State) : body env s (.ok []) = .next s := rfl

theorem body_error (env : Env) (s : State) (err : String) :
    body env s (.error err) = if err = "EOF" then .stop s else .fatal s (.decode s.i err) := rfl

theorem body_cons (env : Env) (s : State) (kv : String × Value) (data : Record) :
    body env s (.ok (kv :: data)) =
      match env.marshal (kv :: data) with
      | .error err => .fatal s (.marshal s.i err)
      | .ok p =>
        match deriveName s.i (kv :: data) with
        | .error e => .fatal s e
        | .ok b =>
          match env.writeFile s.written (pathFor env b (Names.get s.names b)) p with
          | some err =>
            .fatal { s with names := Names.set s.names b (Names.get s.names b + 1) } (.write err)
          | none => .next (s.advance env b p) := by
  simp only [body, List.length_cons, pathFor, State.advance]
  rw [if_neg (by omega)]

theorem body_next_iff (env : Env) (s s1 : State) (data : Record) :
    body env s (.ok data) = .next s1 ↔
      (data = [] ∧ s1 = s) ∨
      (data ≠ [] ∧ ∃ p b, env.marshal data = .ok p ∧ baseName? data = some b ∧
        env.writeFile s.written (pathFor env b (Names.get s.names b)) p = none ∧
        s1 = s.advance env b p) := by
  cases data with
  | nil =>
    rw [body_empty]
    simp [eq_comm]
  | cons kv data =>
    rw [body_cons]
    simp only [reduceCtorEq, false_and, false_or, ne_eq, not_false_eq_true, true_and]
    cases hm : env.marshal (kv :: data) with
    | error err => simp
    | ok p =>
      cases hd : deriveName s.i (kv :: data) with
      | error e =>
        have hb : baseName? (kv :: data) = none := by
          cases hb : baseName? (kv :: data) with
          | none => rfl
          | some b =>
            rw [(deriveName_eq_ok_iff s.i _ b).mpr hb] at hd
            simp at hd
        simp [hb]
      | ok b =>
        have hb := (deriveName_eq_ok_iff s.i _ b).mp hd
        cases hw : env.writeFile s.written (pathFor env b (Names.get s.names b)) p with
        | some err =>
          simp only [hw, reduceCtorEq, Except.ok.injEq, false_iff, not_exists, not_and]
          rintro p2 b2 rfl h2
          rw [hb] at h2
          simp only [Option.some.injEq] at h2
          subst h2
          simp [hw]
        | none =>
          simp only [hw, Step.next.injEq, Except.ok.injEq]
          constructor
          · intro h
            exact ⟨p, b, rfl, hb, hw, h.symm⟩
          · rintro ⟨p2, b2, rfl, h2, _, h4⟩
            rw [hb] at h2
            simp only [Option.some.injEq] at h2
            subst h2
            exact h4.symm

theorem body_ok_ne_stop (env : Env) (s s1 : State) (data : Record) :
    body env s (.ok data) ≠ .stop s1 := by
  cases data with
  | nil => simp [body_empty]
  | cons kv data =>
    rw [body_cons]
    cases hm : env.marshal (kv :: data) with
    | error err => simp
    | ok p =>
      cases hd : deriveName s.i (kv :: data) with
      | error e => simp
      | ok b =>
        cases hw : env.writeFile s.written (pathFor env b (Names.get s.names b)) p <;>
          simp [hw]

theorem body_fatal_written (env : Env) (s s1 : State) (d : Doc) (e : Fatal)
    (h : body env s d = .fatal s1 e) : s1.written = s.written ∧ s1.i = s.i := by
  cases d with
  | error err =>
    rw [body_error] at h
    split at h
    · simp at h
    · simp only [Step.fatal.injEq] at h
      rw [← h.1]
      exact ⟨rfl, rfl⟩
  | ok data =>
    cases data with
    | nil => simp [body_empty] at h
    | cons kv data =>
      rw [body_cons] at h
      cases hm : env.marshal (kv :: data) with
      | error err =>
        simp only [hm, Step.fatal.injEq] at h
        rw [← h.1]
        exact ⟨rfl, rfl⟩
      | ok p =>
        cases hd : deriveName s.i (kv :: data) with
        | error e2 =>
          simp only [hm, hd, Step.fatal.injEq] at h
          rw [← h.1]
          exact ⟨rfl, rfl⟩
        | ok b =>
          cases hw : env.writeFile s.written (pathFor env b (Names.get s.names b)) p with
          | some err =>
            simp only [hm, hd, hw, Step.fatal.injEq] at h
            rw [← h.1]
            exact ⟨rfl, rfl⟩
          | none => simp [hm, hd, hw] at h

/-! ## The loop -/

theorem records_empty_cons (rest : List Doc) : records (.ok [] :: rest) = records rest := rfl

theorem records_error_cons (err : String) (rest : List Doc) :
    records (.error err :: rest) = records rest := rfl

theorem records_of_ne_nil (data : Record) (rest : List Doc) (h : data ≠ []) :
    records (.ok data :: rest) = data :: records rest := by
  cases data with
  | nil => exact absurd rfl h
  | cons kv data => rfl

theorem loop_cons (env : Env) (d : Doc) (rest : List Doc) (s : State) :
    loop env (d :: rest) s =
      match body env s d with
      | .next s1 => loop env rest s1
      | .stop s1 => ⟨s1, .done⟩
      | .fatal s1 e => ⟨s1, .fatal e⟩ := rfl

theorem expectedWrites_cons (env : Env) (seen : List String) (data : Record)
    (rest : List Record) (b p : String) (hb : baseName? data = some b)
    (hm : env.marshal data = .ok p) :
    expectedWrites env seen (data :: rest) =
      (pathFor env b (seen.count b), p) :: expectedWrites env (seen ++ [b]) rest := by
  simp [expectedWrites, hb, hm]

theorem advance_names_get (env : Env) (s : State) (seen : List String) (b p : String)
    (hs : ∀ c, Names.get s.names c = seen.count c) (c : String) :
    Names.get (s.advance env b p).names c = (seen ++ [b]).count c := by
  simp only [State.advance, Names.get_set, List.count_append, hs]
  by_cases h : c = b
  · subst h
    simp
  · have h2 : ¬ b = c := fun e => h e.symm
    simp [h, List.count_cons, h2]

/-- A run without decode errors that ends normally wrote every non-empty record, each under
the path of its base-name and occurrence count, and counted it in the registry. -/
theorem loop_done (env : Env) (docs : List Doc) :
    ∀ (s : State) (seen : List String),
    (∀ d ∈ docs, Decoded d) → (∀ b, Names.get s.names b = seen.count b) →
    (loop env docs s).outcome = .done →
    (∀ data ∈ records docs, ∃ p b, env.marshal data = .ok p ∧ baseName? data = some b) ∧
    (loop env docs s).final.written = s.written ++ expectedWrites env seen (records docs) ∧
    (loop env docs s).final.i = s.i + (records docs).length ∧
    (∀ b, Names.get (loop env docs s).final.names b = (seen ++ baseNames docs).count b) ∧
    ((loop env docs s).final.names.map Prod.snd).sum
      = (s.names.map Prod.snd).sum + (records docs).length := by
  induction docs with
  | nil =>
    intro s seen _ hs _
    simp [loop, records, expectedWrites, baseNames, hs]
  | cons d rest ih =>
    intro s seen hdec hs hdone
    obtain ⟨data, rfl⟩ := hdec d (List.mem_cons_self _ _)
    have hrest : ∀ d ∈ rest, Decoded d := fun d hd => hdec d (List.mem_cons_of_mem _ hd)
    rw [loop_cons] at hdone ⊢
    cases hb : body env s (.ok data) with
    | stop s1 => exact absurd hb (body_ok_ne_stop env s s1 data)
    | fatal s1 e => simp [hb] at hdone
    | next s1 =>
      simp only [hb] at hdone ⊢
      rcases (body_next_iff env s s1 data).mp hb with ⟨rfl, rfl⟩ | ⟨hne, p, b, hm, hbn, _, rfl⟩
      · simpa [records_empty_cons, baseNames] using ih s1 seen hrest hs hdone
      · obtain ⟨h1, h2, h3, h4, h5⟩ :=
          ih (s.advance env b p) (seen ++ [b]) hrest (advance_names_get env s seen b p hs) hdone
        have hnames : baseNames (.ok data :: rest) = b :: baseNames rest := by
          simp [baseNames, records_of_ne_nil data rest hne, List.filterMap_cons, hbn]
        rw [records_of_ne_nil data rest hne]
        refine ⟨?_, ?_, ?_, ?_, ?_⟩
        · intro r hr
          rcases List.mem_cons.mp hr with rfl | hr
          · exact ⟨p, b, hm, hbn⟩
          · exact h1 r hr
        · rw [h2, expectedWrites_cons env seen data _ b p hbn hm, ← hs b]
          simp [State.advance]
        · rw [h3]
          simp [State.advance]
          omega
        · intro c
          rw [h4 c, hnames]
          simp
        · rw [h5]
          simp only [State.advance, Names.sum_set, List.length_cons]
          omega

theorem mem_records_cons (d : Doc) (rest : List Doc) (data : Record)
    (h : data ∈ records rest) : data ∈ records (d :: rest) := by
  cases d with
  | error err => exact h
  | ok r =>
    cases r with
    | nil => exact h
    | cons kv r => exact List.mem_cons_of_mem _ h

theorem mem_records (docs : List Doc) (data : Record) (h : data ∈ records docs) :
    data ≠ [] ∧ Except.ok data ∈ docs := by
  induction docs with
  | nil => simp [records] at h
  | cons d rest ih =>
    cases d with
    | error err =>
      rw [records_error_cons] at h
      exact ⟨(ih h).1, List.mem_cons_of_mem _ (ih h).2⟩
    | ok r =>
      cases r with
      | nil =>
        rw [records_empty_cons] at h
        exact ⟨(ih h).1, List.mem_cons_of_mem _ (ih h).2⟩
      | cons kv r =>
        rw [records_of_ne_nil _ _ (List.cons_ne_nil kv r)] at h
        rcases List.mem_cons.mp h with rfl | h
        · exact ⟨List.cons_ne_nil kv r, List.mem_cons_self _ _⟩
        · exact ⟨(ih h).1, List.mem_cons_of_mem _ (ih h).2⟩

/-- On a stream of valid documents, with serialization and writes succeeding, the loop
runs to the end of the stream. -/
theorem loop_valid (env : Env) (docs : List Doc) :
    ∀ (s : State), (∀ d ∈ docs, ValidDoc d) → EnvOk env docs →
    (loop env docs s).outcome = .done := by
  induction docs with
  | nil =>
    intro s _ _
    rfl
  | cons d rest ih =>
    intro s hv he
    have hvr : ∀ d ∈ rest, ValidDoc d := fun d hd => hv d (List.mem_cons_of_mem _ hd)
    have her : EnvOk env rest :=
      ⟨fun data hd => he.1 data (mem_records_cons d rest data hd), he.2⟩
    obtain ⟨data, rfl, hdata⟩ := hv d (List.mem_cons_self _ _)
    rw [loop_cons]
    by_cases hne : data = []
    · subst hne
      rw [body_empty]
      exact ih s hvr her
    · obtain ⟨b, hb⟩ := hdata.resolve_left hne
      obtain ⟨p, hp⟩ := he.1 data (by
        rw [records_of_ne_nil data rest hne]
        exact List.mem_cons_self _ _)
      have hbody : body env s (.ok data) = .next (s.advance env b p) :=
        (body_next_iff env s _ data).mpr (Or.inr ⟨hne, p, b, hp, hb, he.2 _ _ _, rfl⟩)
      rw [hbody]
      exact ih _ hvr her

/-! ## Decimal formatting and file names -/

theorem decodeDigits_append (pre : List Char) (d : Char) :
    decodeDigits (pre ++ [d]) = 10 * decodeDigits pre + (d.toNat - 48) := by
  simp [decodeDigits, List.foldl_append]

theorem digitChar_val : ∀ k, k < 10 → (Nat.digitChar k).toNat - 48 = k := by decide

theorem toDigitsCore_decode (fuel : Nat) :
    ∀ (n : Nat) (ds : List Char), n < fuel →
      ∃ pre, Nat.toDigitsCore 10 fuel n ds = pre ++ ds ∧ decodeDigits pre = n := by
  induction fuel with
  | zero =>
    intro n ds h
    omega
  | succ fuel ih =>
    intro n ds h
    unfold Nat.toDigitsCore
    by_cases h0 : n / 10 = 0
    · refine ⟨[Nat.digitChar (n % 10)], by simp [h0], ?_⟩
      have hn : n % 10 = n := by omega
      have hv := digitChar_val (n % 10) (Nat.mod_lt _ (by omega))
      simp only [decodeDigits, List.foldl_cons, List.foldl_nil, Nat.mul_zero, Nat.zero_add]
      rw [hv, hn]
    · obtain ⟨pre, hpre, hdec⟩ := ih (n / 10) (Nat.digitChar (n % 10) :: ds) (by omega)
      refine ⟨pre ++ [Nat.digitChar (n % 10)], by simp [h0, hpre], ?_⟩
      rw [decodeDigits_append, hdec, digitChar_val (n % 10) (Nat.mod_lt _ (by omega))]
      omega

theorem fmtInt_injective (c1 c2 : Nat) (h : fmtInt c1 = fmtInt c2) : c1 = c2 := by
  have hd : Nat.toDigits 10 c1 = Nat.toDigits 10 c2 := by
    have h3 := congrArg String.data h
    simpa [fmtInt, Nat.repr, List.asString] using h3
  obtain ⟨p1, h1, e1⟩ := toDigitsCore_decode (c1 + 1) c1 [] (by omega)
  obtain ⟨p2, h2, e2⟩ := toDigitsCore_decode (c2 + 1) c2 [] (by omega)
  unfold Nat.toDigits at hd
  rw [h1, h2] at hd
  simp only [List.append_nil] at hd
  rw [← e1, ← e2, hd]

theorem fileName_injective (env : Env) (b : String) (c1 c2 : Nat)
    (h : fileName env b c1 = fileName env b c2) : c1 = c2 := by
  have hdata := congrArg String.data h
  unfold fileName at hdata
  by_cases h1 : c1 = 0 <;> by_cases h2 : c2 = 0
  · omega
  · simp [h1, h2, String.data_append] at hdata
  · simp [h1, h2, String.data_append] at hdata
  · simp only [h1, h2, if_false, String.data_append, List.append_assoc,
      List.append_cancel_left_eq, List.append_cancel_right_eq] at hdata
    exact fmtInt_injective c1 c2 (String.ext hdata)

theorem pathFor_injective (env : Env) (b : String) (c1 c2 : Nat)
    (h : pathFor env b c1 = pathFor env b c2) : c1 = c2 := by
  have hdata := congrArg String.data h
  simp only [pathFor, String.data_append, List.append_cancel_left_eq] at hdata
  exact fileName_injective env b c1 c2 (String.ext hdata)

theorem digitChar_ne_underscore : ∀ k, k < 10 → Nat.digitChar k ≠ '_' := by decide

theorem toDigitsCore_no_underscore (fuel : Nat) :
    ∀ (n : Nat) (ds : List Char), '_' ∉ ds → '_' ∉ Nat.toDigitsCore 10 fuel n ds := by
  induction fuel with
  | zero =>
    intro n ds h
    simpa [Nat.toDigitsCore] using h
  | succ fuel ih =>
    intro n ds h
    have hd : '_' ∉ Nat.digitChar (n % 10) :: ds := by
      intro hmem
      rcases List.mem_cons.mp hmem with h1 | h1
      · exact digitChar_ne_underscore (n % 10) (Nat.mod_lt _ (by omega)) h1.symm
      · exact h h1
    unfold Nat.toDigitsCore
    by_cases h0 : n / 10 = 0
    · simpa [h0] using hd
    · simpa [h0] using ih (n / 10) _ hd

theorem fmtInt_no_underscore (c : Nat) : '_' ∉ (fmtInt c).data := by
  have h := toDigitsCore_no_underscore (c + 1) c [] (by simp)
  simpa [fmtInt, Nat.repr, List.asString, Nat.toDigits] using h

theorem append_underscore_cancel (x : List Char) :
    ∀ (y d1 d2 : List Char), '_' ∉ d1 → '_' ∉ d2 →
      x ++ '_' :: d1 = y ++ '_' :: d2 → x = y ∧ d1 = d2 := by
  induction x with
  | nil =>
    intro y d1 d2 h1 h2 h
    cases y with
    | nil => exact ⟨rfl, by simpa using h⟩
    | cons a y =>
      simp only [List.nil_append, List.cons_append, List.cons.injEq] at h
      exact absurd (by rw [h.2]; simp) h1
  | cons a x ih =>
    intro y d1 d2 h1 h2 h
    cases y with
    | nil =>
      simp only [List.nil_append, List.cons_append, List.cons.injEq] at h
      exact absurd (by rw [← h.2]; simp) h2
    | cons b y =>
      simp only [List.cons_append, List.cons.injEq] at h
      obtain ⟨hxy, hd⟩ := ih y d1 d2 h1 h2 h.2
      exact ⟨by rw [h.1, hxy], hd⟩

/-- Two file names agree only when the lower-cased base-names agree (and the counts do), or
one lower-cased base-name is the other followed by `_` and the other's count. -/
theorem fileName_eq_cases (env : Env) (b1 b2 : String) (c1 c2 : Nat)
    (h : fileName env b1 c1 = fileName env b2 c2) :
    (toLower env b1 = toLower env b2 ∧ c1 = c2) ∨
    (c1 = 0 ∧ 1 ≤ c2 ∧ toLower env b1 = toLower env b2 ++ "_" ++ fmtInt c2) ∨
    (c2 = 0 ∧ 1 ≤ c1 ∧ toLower env b2 = toLower env b1 ++ "_" ++ fmtInt c1) := by
  have hdata := congrArg String.data h
  unfold fileName at hdata
  by_cases h1 : c1 = 0 <;> by_cases h2 : c2 = 0
  · simp only [h1, h2, if_true, String.data_append, List.append_cancel_right_eq] at hdata
    exact Or.inl ⟨String.ext hdata, by omega⟩
  · simp only [h1, h2, if_true, if_false, String.data_append,
      List.append_cancel_right_eq] at hdata
    refine Or.inr (Or.inl ⟨h1, by omega, String.ext ?_⟩)
    simpa [String.data_append] using hdata
  · simp only [h1, h2, if_true, if_false, String.data_append,
      List.append_cancel_right_eq] at hdata
    refine Or.inr (Or.inr ⟨h2, by omega, String.ext ?_⟩)
    simpa [String.data_append] using hdata.symm
  · simp only [h1, h2, if_false, String.data_append, List.append_cancel_right_eq] at hdata
    have hsplit : (toLower env b1).data ++ '_' :: (fmtInt c1).data
        = (toLower env b2).data ++ '_' :: (fmtInt c2).data := by
      simpa using hdata
    obtain ⟨hl, hf⟩ := append_underscore_cancel _ _ _ _ (fmtInt_no_underscore c1)
      (fmtInt_no_underscore c2) hsplit
    exact Or.inl ⟨String.ext hl, fmtInt_injective c1 c2 (String.ext hf)⟩

theorem pathFor_eq (env : Env) (b1 b2 : String) (c1 c2 : Nat)
    (h : pathFor env b1 c1 = pathFor env b2 c2) : fileName env b1 c1 = fileName env b2 c2 := by
  have hdata := congrArg String.data h
  simp only [pathFor, String.data_append, List.append_cancel_left_eq] at hdata
  exact String.ext hdata

theorem count_take_lt (ns : List String) (b : String) (k1 k2 : Nat) (hk : k1 < k2)
    (h1 : ns[k1]? = some b) : (ns.take k1).count b < (ns.take k2).count b := by
  have hstep : (ns.take (k1 + 1)).count b = (ns.take k1).count b + 1 := by
    rw [List.take_succ, h1]
    simp
  have hsub : (ns.take (k1 + 1)).Sublist (ns.take k2) := by
    have : ns.take (k1 + 1) = (ns.take k2).take (k1 + 1) := by
      rw [List.take_take, Nat.min_eq_left (by omega)]
    rw [this]
    exact List.take_sublist _ _
  have := hsub.count_le b
  omega

/-! ## Predicted paths -/

theorem assignPaths_length (env : Env) (ns : List String) :
    ∀ seen, (assignPaths env seen ns).length = ns.length := by
  induction ns with
  | nil => intro seen; rfl
  | cons b rest ih => intro seen; simp [assignPaths, ih]

theorem assignPaths_getElem? (env : Env) (ns : List String) :
    ∀ (seen : List String) (k : Nat) (b : String), ns[k]? = some b →
      (assignPaths env seen ns)[k]? = some (pathFor env b ((seen ++ ns.take k).count b)) := by
  induction ns with
  | nil => intro seen k b h; simp at h
  | cons a rest ih =>
    intro seen k b h
    cases k with
    | zero =>
      simp only [List.getElem?_cons_zero, Option.some.injEq] at h
      subst h
      simp [assignPaths]
    | succ k =>
      simp only [List.getElem?_cons_succ] at h
      simp only [assignPaths, List.getElem?_cons_succ, List.take_succ_cons]
      rw [ih (seen ++ [a]) k b h]
      simp

theorem assignPaths_filter (env : Env) (ns : List String) (b : String) :
    ∀ seen, ((ns.zip (assignPaths env seen ns)).filter (fun x => decide (x.1 = b))).map Prod.snd
      = (List.range' (seen.count b) (ns.count b)).map (pathFor env b) := by
  induction ns with
  | nil => intro seen; simp [assignPaths]
  | cons a rest ih =>
    intro seen
    by_cases h : a = b
    · subst h
      simp only [assignPaths, List.zip_cons_cons, List.filter_cons, decide_True, if_true,
        List.map_cons, ih, List.count_cons_self, List.count_append, List.count_singleton_self]
      rw [List.range'_succ]
      simp
    · simp only [assignPaths, List.zip_cons_cons, List.filter_cons, h, decide_False,
        Bool.false_eq_true, if_false, ih, List.count_append]
      simp [List.count_cons, h]

theorem assignPaths_nodup (env : Env) (b : String) (n : Nat) :
    ((List.range n).map (pathFor env b)).Nodup :=
  List.Nodup.map (fun c1 c2 h => pathFor_injective env b c1 c2 h) (List.nodup_range n)

theorem expectedWrites_fst (env : Env) (rs : List Record) :
    ∀ seen, (∀ data ∈ rs, ∃ p b, env.marshal data = .ok p ∧ baseName? data = some b) →
      (expectedWrites env seen rs).map Prod.fst = assignPaths env seen (rs.filterMap baseName?) ∧
      rs.map baseName? = (rs.filterMap baseName?).map some := by
  induction rs with
  | nil => intro seen _; simp [expectedWrites, assignPaths]
  | cons data rest ih =>
    intro seen h
    obtain ⟨p, b, hm, hb⟩ := h data (List.mem_cons_self _ _)
    obtain ⟨h1, h2⟩ := ih (seen ++ [b]) (fun r hr => h r (List.mem_cons_of_mem _ hr))
    rw [expectedWrites_cons env seen data rest b p hb hm]
    simp [List.filterMap_cons, hb, assignPaths, h1, h2]

theorem filterMap_length_of_map (rs : List Record) (ns : List String)
    (h : rs.map baseName? = ns.map some) : ns.length = rs.length := by
  have := congrArg List.length h
  simpa using this.symm

/-! ## Splitting a run -/

theorem body_next_decoded (env : Env) (s s1 : State) (d : Doc) (h : body env s d = .next s1) :
    ∃ data, d = .ok data := by
  cases d with
  | ok data => exact ⟨data, rfl⟩
  | error err =>
    rw [body_error] at h
    split at h <;> simp at h

theorem body_stop (env : Env) (s s1 : State) (d : Doc) (h : body env s d = .stop s1) :
    s1 = s ∧ d = .error "EOF" := by
  cases d with
  | ok data => exact absurd h (body_ok_ne_stop env s s1 data)
  | error err =>
    rw [body_error] at h
    split at h
    · rename_i herr
      simp only [Step.stop.injEq] at h
      exact ⟨h.symm, by rw [herr]⟩
    · simp at h

theorem decoded_ne_eof (d : Doc) (h : Decoded d) : d ≠ .error "EOF" := by
  obtain ⟨data, rfl⟩ := h
  simp

theorem loop_append_done (env : Env) (pre rest : List Doc) :
    ∀ s, (∀ d ∈ pre, d ≠ .error "EOF") → (loop env pre s).outcome = .done →
      loop env (pre ++ rest) s = loop env rest (loop env pre s).final := by
  induction pre with
  | nil => intro s _ _; rfl
  | cons d pre ih =>
    intro s hdec hdone
    have hpre : ∀ d ∈ pre, d ≠ .error "EOF" := fun d hd => hdec d (List.mem_cons_of_mem _ hd)
    rw [List.cons_append, loop_cons]
    rw [loop_cons] at hdone ⊢
    cases hb : body env s d with
    | next s1 =>
      simp only [hb] at hdone ⊢
      exact ih s1 hpre hdone
    | stop s1 => exact absurd (body_stop env s s1 d hb).2 (hdec d (List.mem_cons_self _ _))
    | fatal s1 e => simp [hb] at hdone

theorem loop_append_fatal (env : Env) (pre rest : List Doc) :
    ∀ s e, (∀ d ∈ pre, d ≠ .error "EOF") → (loop env pre s).outcome = .fatal e →
      loop env (pre ++ rest) s = loop env pre s := by
  induction pre with
  | nil => intro s e _ h; simp [loop] at h
  | cons d pre ih =>
    intro s e hdec hf
    have hpre : ∀ d ∈ pre, d ≠ .error "EOF" := fun d hd => hdec d (List.mem_cons_of_mem _ hd)
    rw [List.cons_append, loop_cons, loop_cons]
    rw [loop_cons] at hf
    cases hb : body env s d with
    | next s1 =>
      simp only [hb] at hf ⊢
      exact ih s1 e hpre hf
    | stop s1 => rfl
    | fatal s1 e1 => rfl

theorem decoded_of_done (env : Env) (docs : List Doc) :
    ∀ s, (∀ d ∈ docs, d ≠ .error "EOF") → (loop env docs s).outcome = .done →
      ∀ d ∈ docs, Decoded d := by
  induction docs with
  | nil => intro s _ _ d hd; simp at hd
  | cons d0 rest ih =>
    intro s hne hdone d hd
    rw [loop_cons] at hdone
    cases hb : body env s d0 with
    | next s1 =>
      simp only [hb] at hdone
      rcases List.mem_cons.mp hd with rfl | hd
      · exact body_next_decoded env s s1 _ hb
      · exact ih s1 (fun d hd => hne d (List.mem_cons_of_mem _ hd)) hdone d hd
    | stop s1 => exact absurd (body_stop env s s1 d0 hb).2 (hne d0 (List.mem_cons_self _ _))
    | fatal s1 e => simp [hb] at hdone

theorem loop_written_length (env : Env) (docs : List Doc) (s : State)
    (hdec : ∀ d ∈ docs, Decoded d) (hs : ∀ b, Names.get s.names b = 0)
    (hdone : (loop env docs s).outcome = .done) :
    (loop env docs s).final.written.length = s.written.length + (records docs).length ∧
    ((loop env docs s).final.written.map Prod.fst
      = s.written.map Prod.fst ++ assignPaths env [] (baseNames docs)) ∧
    (records docs).map baseName? = (baseNames docs).map some := by
  obtain ⟨h1, h2, _, _, _⟩ := loop_done env docs s [] hdec (by simpa using hs) hdone
  obtain ⟨h6, h7⟩ := expectedWrites_fst env (records docs) [] h1
  have hlen := congrArg List.length h6
  simp only [List.length_map, assignPaths_length] at hlen
  refine ⟨?_, ?_, h7⟩
  · rw [h2, List.length_append, hlen]
    exact congrArg _ (filterMap_length_of_map _ _ h7)
  · rw [h2, List.map_append, h6]
    rfl

/-! ## Name derivation: the error cases -/

theorem noString_iff (data : Record) (key : String) :
    NoString data key ↔ asString (data.get key) = none := by
  unfold NoString
  cases h : data.get key with
  | none => simp [asString]
  | some v => cases v <;> simp [asString]

theorem noMap_iff (data : Record) (key : String) :
    NoMap data key ↔ asMap (data.get key) = none := by
  unfold NoMap
  cases h : data.get key with
  | none => simp [asMap]
  | some v => cases v <;> simp [asMap]

/-- C8: name derivation fails with the missing-Kind error exactly when `kind` is absent or
not a string; otherwise with the missing-Metadata error exactly when `metadata` is absent or
not a key/value collection; otherwise with the missing-Metadata.name error exactly when
`name` inside `metadata` is absent or not a string; and it succeeds, with base-name
`kind-name` in the original letter case, exactly when all three are present with the right
type. -/
theorem deriveName_cases (i : Nat) (data : Record) :
    (deriveName i data = .error (.noKind i) ↔ NoString data "kind") ∧
    (deriveName i data = .error (.noMetadata i) ↔
      ¬ NoString data "kind" ∧ NoMap data "metadata") ∧
    (deriveName i data = .error (.noName i) ↔
      ¬ NoString data "kind" ∧
        ∃ metadata : Record, data.get "metadata" = some (.map metadata) ∧
          NoString metadata "name") ∧
    (∀ b, deriveName i data = .ok b ↔
      ∃ (kind : String) (metadata : Record) (n : String),
        data.get "kind" = some (.str kind) ∧
        data.get "metadata" = some (.map metadata) ∧
        metadata.get "name" = some (.str n) ∧ b = kind ++ "-" ++ n) := by
  refine ⟨?_, ?_, ?_, fun b => ?_⟩
  · rw [noString_iff]
    unfold deriveName
    cases h1 : asString (data.get "kind") with
    | none => simp
    | some kind =>
      cases h2 : asMap (data.get "metadata") with
      | none => simp
      | some metadata =>
        cases h3 : asString (metadata.get "name") <;> simp [h3]
  · rw [noString_iff, noMap_iff]
    unfold deriveName
    cases h1 : asString (data.get "kind") with
    | none => simp
    | some kind =>
      cases h2 : asMap (data.get "metadata") with
      | none => simp
      | some metadata =>
        cases h3 : asString (metadata.get "name") <;> simp [h3]
  · rw [noString_iff]
    unfold deriveName
    cases h1 : asString (data.get "kind") with
    | none => simp
    | some kind =>
      cases h2 : asMap (data.get "metadata") with
      | none =>
        have hf : ¬ ∃ metadata : Record,
            data.get "metadata" = some (.map metadata) ∧ NoString metadata "name" := by
          rintro ⟨metadata, hm, _⟩
          rw [(asMap_eq_some_iff _ _).mpr hm] at h2
          simp at h2
        simp [hf]
      | some metadata =>
        rw [asMap_eq_some_iff] at h2
        simp only [h2, Option.some.injEq, Value.map.injEq, exists_eq_left', reduceCtorEq,
          not_false_eq_true, true_and]
        rw [noString_iff]
        cases h3 : asString (metadata.get "name") <;> simp [h3]
  · rw [deriveName_eq_ok_iff, baseName?_eq_some_iff]

/-! ## File names -/

/-- C1: on a stream whose non-empty documents all carry a string `kind` and a string
`metadata.name` (serialization and writes succeeding), the run completes and writes one file
per non-empty document; the document at position `k` among the non-empty ones, with base-name
`b = kind-name`, for which `j` earlier non-empty documents have the same base-name, is written
to `lowercase(b).yaml` when `j = 0` and to `lowercase(b)_j.yaml` otherwise.  Hence the
documents sharing base-name `b`, `C` of them, are written in input order to the names of the
counts `0, 1, ..., C-1`, which are pairwise different. -/
theorem file_names_by_occurrence (env : Env) (docs : List Doc)
    (hvalid : ∀ d ∈ docs, ValidDoc d) (henv : EnvOk env docs) :
    (run env docs).outcome = .done ∧
    (filesWritten env docs).length = (records docs).length ∧
    (records docs).map baseName? = (baseNames docs).map some ∧
    (∀ k b, (baseNames docs)[k]? = some b →
      (filesWritten env docs)[k]? = some (env.outDir ++ "/" ++
        (if ((baseNames docs).take k).count b = 0 then toLower env b ++ ".yaml"
         else toLower env b ++ "_" ++ fmtInt (((baseNames docs).take k).count b) ++ ".yaml"))) ∧
    (∀ b,
      (((baseNames docs).zip (filesWritten env docs)).filter (fun x => decide (x.1 = b))).map
          Prod.snd
        = (List.range ((baseNames docs).count b)).map (fun j => env.outDir ++ "/" ++ fileName env b j)
      ∧ ((List.range ((baseNames docs).count b)).map
          (fun j => env.outDir ++ "/" ++ fileName env b j)).Nodup) := by
  have hdec : ∀ d ∈ docs, Decoded d := fun d hd => by
    obtain ⟨data, h, _⟩ := hvalid d hd
    exact ⟨data, h⟩
  have hdone : (loop env docs initState).outcome = .done := loop_valid env docs _ hvalid henv
  obtain ⟨h1, h2, h3⟩ := loop_written_length env docs initState hdec (fun b => rfl) hdone
  have hfiles : filesWritten env docs = assignPaths env [] (baseNames docs) := by
    simpa [filesWritten, run, initState] using h2
  refine ⟨hdone, ?_, h3, ?_, fun b => ⟨?_, ?_⟩⟩
  · simpa [filesWritten, run, initState] using h1
  · intro k b hk
    rw [hfiles, assignPaths_getElem? env (baseNames docs) [] k b hk]
    simp [pathFor, fileName]
  · rw [hfiles, assignPaths_filter env (baseNames docs) b []]
    simp [List.range_eq_range', pathFor]
  · exact assignPaths_nodup env b _

/-- C1 at two manifests `Pod/foo`: `pod-foo.yaml`, then `pod-foo_1.yaml`. -/
theorem file_names_by_occurrence_witness :
    (∀ d ∈ twoPods, ValidDoc d) ∧ EnvOk plainEnv twoPods ∧
      (run plainEnv twoPods).outcome = .done ∧
      filesWritten plainEnv twoPods = ["out/pod-foo.yaml", "out/pod-foo_1.yaml"] :=
  have hv : ∀ d ∈ twoPods, ValidDoc d := fun d hd => by
    simp only [twoPods, List.mem_cons, List.mem_singleton, List.mem_nil_iff, or_false,
      or_self] at hd
    exact ⟨manifest "Pod" "foo", hd, Or.inr ⟨"Pod-foo", by decide⟩⟩
  have he : EnvOk plainEnv twoPods := ⟨fun _ _ => ⟨"doc", rfl⟩, fun _ _ _ => rfl⟩
  ⟨hv, he, (file_names_by_occurrence plainEnv twoPods hv he).1, by decide⟩

/-! ## One file per document -/

/-- C2, as stated, fails: the three documents `pod/foo`, `pod/foo`, `pod/foo_1` are
processed to completion, yet the second and the third are written to the same path, so three
non-empty documents leave two distinct files. -/
theorem distinct_files_counterexample :
    (run plainEnv suffixClash).outcome = .done ∧
    (records suffixClash).length = 3 ∧
    filesWritten plainEnv suffixClash
      = ["out/pod-foo.yaml", "out/pod-foo_1.yaml", "out/pod-foo_1.yaml"] ∧
    ¬ (filesWritten plainEnv suffixClash).Nodup := by
  decide

/-- C2 (amended): on a stream that the run processes to completion, exactly one write is
performed per non-empty document, and two different non-empty documents are written to the
same path only if their base-name strings differ and either their lower-cased base-names
are equal or the lower-cased base-name of one is that of the other followed by `_j` for some
`j ≥ 1`; all other pairs of documents, those sharing a base-name among them, are written to
different paths. -/
theorem files_distinct_up_to_stem_clash (env : Env) (docs : List Doc)
    (hstream : NoEof docs) (hdone : (run env docs).outcome = .done) :
    (run env docs).final.written.length = (records docs).length ∧
    (records docs).map baseName? = (baseNames docs).map some ∧
    ∀ (k1 k2 : Nat) (b1 b2 f : String), k1 < k2 →
      (baseNames docs)[k1]? = some b1 → (baseNames docs)[k2]? = some b2 →
      (filesWritten env docs)[k1]? = some f → (filesWritten env docs)[k2]? = some f →
      b1 ≠ b2 ∧
      (toLower env b1 = toLower env b2 ∨
        ∃ j, 1 ≤ j ∧
          (toLower env b1 = toLower env b2 ++ "_" ++ fmtInt j ∨
            toLower env b2 = toLower env b1 ++ "_" ++ fmtInt j)) := by
  have hdec := decoded_of_done env docs initState hstream hdone
  obtain ⟨h1, h2, h3⟩ := loop_written_length env docs initState hdec (fun b => rfl) hdone
  have hfiles : filesWritten env docs = assignPaths env [] (baseNames docs) := by
    simpa [filesWritten, run, initState] using h2
  refine ⟨by simpa [run, initState] using h1, h3, ?_⟩
  intro k1 k2 b1 b2 f hk hb1 hb2 hf1 hf2
  rw [hfiles, assignPaths_getElem? env (baseNames docs) [] k1 b1 hb1] at hf1
  rw [hfiles, assignPaths_getElem? env (baseNames docs) [] k2 b2 hb2] at hf2
  simp only [List.nil_append, Option.some.injEq] at hf1 hf2
  have hpath := pathFor_eq env b1 b2 _ _ (hf1.trans hf2.symm)
  constructor
  · intro hb
    subst hb
    have hc := fileName_injective env b1 _ _ hpath
    have hlt := count_take_lt (baseNames docs) b1 k1 k2 hk hb1
    omega
  · rcases fileName_eq_cases env b1 b2 _ _ hpath with h | h | h
    · exact Or.inl h.1
    · exact Or.inr ⟨_, h.2.1, Or.inl h.2.2⟩
    · exact Or.inr ⟨_, h.2.1, Or.inr h.2.2⟩

/-- The amended C2 at `pod/foo`, `pod/foo`, `pod/foo_1`, whose second and third documents
share a path, and at `Pod/foo`, `Service/bar`, `Pod/foo`, written to three different
paths. -/
theorem files_distinct_up_to_stem_clash_witness :
    NoEof suffixClash ∧ (run plainEnv suffixClash).outcome = .done ∧
      ("pod-foo" ≠ "pod-foo_1" ∧
        (toLower plainEnv "pod-foo" = toLower plainEnv "pod-foo_1" ∨
          ∃ j, 1 ≤ j ∧
            (toLower plainEnv "pod-foo" = toLower plainEnv "pod-foo_1" ++ "_" ++ fmtInt j ∨
              toLower plainEnv "pod-foo_1" = toLower plainEnv "pod-foo" ++ "_" ++ fmtInt j))) ∧
      filesWritten plainEnv mixedDocs
        = ["out/pod-foo.yaml", "out/service-bar.yaml", "out/pod-foo_1.yaml"] ∧
      (filesWritten plainEnv mixedDocs).Nodup :=
  have hs : NoEof suffixClash := fun d hd => by
    simp only [suffixClash, List.mem_cons, List.mem_singleton, List.mem_nil_iff,
      or_false] at hd
    rcases hd with rfl | rfl | rfl <;> simp
  ⟨hs, by decide,
    (files_distinct_up_to_stem_clash plainEnv suffixClash hs (by decide)).2.2 1 2
      "pod-foo" "pod-foo_1" "out/pod-foo_1.yaml" (by decide) (by decide) (by decide)
      (by decide) (by decide),
    by decide, by decide⟩

/-- C3: the code keys the registry by the base-name in its original letter case: `Pod/foo`
followed by `pod/foo` fills two registry entries with count 1 each, and both documents are
written to `pod-foo.yaml`, where the claim requires `pod-foo.yaml` then `pod-foo_1.yaml`. -/
theorem registry_case_sensitive :
    (run plainEnv caseClash).outcome = .done ∧
    (run plainEnv caseClash).final.names = [("Pod-foo", 1), ("pod-foo", 1)] ∧
    filesWritten plainEnv caseClash = ["out/pod-foo.yaml", "out/pod-foo.yaml"] ∧
    filesWritten plainEnv caseClash ≠ ["out/pod-foo.yaml", "out/pod-foo_1.yaml"] := by
  decide

/-! ## Empty documents -/

theorem loop_filter_empty (env : Env) (docs : List Doc) :
    ∀ s, loop env (docs.filter (fun d => !isEmptyDoc d)) s = loop env docs s := by
  induction docs with
  | nil => intro s; rfl
  | cons d rest ih =>
    intro s
    by_cases he : isEmptyDoc d = true
    · have hd : d = .ok [] := by
        unfold isEmptyDoc at he
        split at he
        · rfl
        · simp at he
      subst hd
      rw [List.filter_cons_of_neg (by simp [isEmptyDoc]), loop_cons, body_empty]
      exact ih s
    · rw [List.filter_cons_of_pos (by simpa using he), loop_cons, loop_cons]
      cases body env s d with
      | next s1 => exact ih s1
      | stop s1 => rfl
      | fatal s1 e => rfl

/-- C5: deleting from a stream every document that decodes to a record without keys changes
nothing of the run: the same writes (paths and contents, in order), the same final registry,
the same index and the same outcome. -/
theorem empty_documents_ignored (env : Env) (docs : List Doc) :
    run env (docs.filter (fun d => !isEmptyDoc d)) = run env docs ∧
    (run env (docs.filter (fun d => !isEmptyDoc d))).final.written
      = (run env docs).final.written ∧
    (run env (docs.filter (fun d => !isEmptyDoc d))).final.names
      = (run env docs).final.names := by
  have h : run env (docs.filter (fun d => !isEmptyDoc d)) = run env docs :=
    loop_filter_empty env docs initState
  exact ⟨h, by rw [h], by rw [h]⟩

/-! ## A document without `kind` -/

theorem body_no_kind (env : Env) (s : State) (data : Record) (hne : data ≠ [])
    (hkind : NoString data "kind") :
    ∃ e, body env s (.ok data) = .fatal s e ∧ (e = .noKind s.i ∨ ∃ err, e = .marshal s.i err) := by
  cases data with
  | nil => exact absurd rfl hne
  | cons kv data =>
    rw [body_cons]
    cases hm : env.marshal (kv :: data) with
    | error err => exact ⟨.marshal s.i err, rfl, Or.inr ⟨err, rfl⟩⟩
    | ok p =>
      have hd := (deriveName_cases s.i (kv :: data)).1.mpr hkind
      exact ⟨.noKind s.i, by simp [hd], Or.inl rfl⟩

/-- C6: when a stream holds a non-empty document without a string `kind`, the run ends in a
fatal error and nothing is written for that document or any later one: the files written are
those written for the documents before it.  When these are all valid (and serialized and
written), they are processed to the end, the files are exactly theirs, one per non-empty
document, and the error is raised at the offending document. -/
theorem missing_kind_aborts (env : Env) (pre post : List Doc) (data : Record)
    (hstream : NoEof pre) (hne : data ≠ []) (hkind : NoString data "kind") :
    (∃ e, (run env (pre ++ .ok data :: post)).outcome = .fatal e) ∧
    (run env (pre ++ .ok data :: post)).final.written = (run env pre).final.written ∧
    ((∀ d ∈ pre, ValidDoc d) → EnvOk env pre →
      (run env pre).outcome = .done ∧
      (run env pre).final.written = expectedWrites env [] (records pre) ∧
      (run env pre).final.written.length = (records pre).length ∧
      ((run env (pre ++ .ok data :: post)).outcome = .fatal (.noKind (records pre).length) ∨
        ∃ err, (run env (pre ++ .ok data :: post)).outcome
          = .fatal (.marshal (records pre).length err))) := by
  obtain ⟨e, hbody, he⟩ := body_no_kind env (loop env pre initState).final data hne hkind
  have hcont : (loop env pre initState).outcome = .done →
      run env (pre ++ .ok data :: post) = ⟨(loop env pre initState).final, .fatal e⟩ := by
    intro hdone
    unfold run
    rw [loop_append_done env pre _ initState hstream hdone, loop_cons, hbody]
  refine ⟨?_, ?_, ?_⟩
  · cases ho : (loop env pre initState).outcome with
    | done => exact ⟨e, by rw [hcont ho]⟩
    | fatal e1 =>
      refine ⟨e1, ?_⟩
      unfold run
      rw [loop_append_fatal env pre _ initState e1 hstream ho, ho]
  · cases ho : (loop env pre initState).outcome with
    | done =>
      rw [hcont ho]
      rfl
    | fatal e1 =>
      unfold run
      rw [loop_append_fatal env pre _ initState e1 hstream ho]
  · intro hpre henv
    have hdec : ∀ d ∈ pre, Decoded d := fun d hd => by
      obtain ⟨r, h, _⟩ := hpre d hd
      exact ⟨r, h⟩
    have hdone : (loop env pre initState).outcome = .done := loop_valid env pre _ hpre henv
    obtain ⟨_, h2, h3, _, _⟩ := loop_done env pre initState [] hdec (fun b => rfl) hdone
    obtain ⟨h4, _, _⟩ := loop_written_length env pre initState hdec (fun b => rfl) hdone
    have hi : (loop env pre initState).final.i = (records pre).length := by
      rw [h3]
      simp [initState]
    rw [hi] at he
    refine ⟨hdone, ?_, ?_, ?_⟩
    · simpa [run, initState] using h2
    · simpa [run, initState] using h4
    · rw [hcont hdone]
      rcases he with rfl | ⟨err, rfl⟩
      · exact Or.inl rfl
      · exact Or.inr ⟨err, rfl⟩

/-- C6 at two manifests `Pod/foo` followed by a document without `kind` and a further
manifest. -/
theorem missing_kind_aborts_witness :
    NoEof twoPods ∧
      [("metadata", Value.map [("name", .str "bar")])] ≠ [] ∧
      NoString [("metadata", Value.map [("name", .str "bar")])] "kind" ∧
      (run plainEnv (twoPods ++ .ok [("metadata", .map [("name", .str "bar")])]
          :: [.ok (manifest "Pod" "baz")])).final.written
        = (run plainEnv twoPods).final.written ∧
      (run plainEnv (twoPods ++ .ok [("metadata", .map [("name", .str "bar")])]
          :: [.ok (manifest "Pod" "baz")])).outcome = .fatal (.noKind 2) :=
  have hs : NoEof twoPods := fun d hd => by
    simp only [twoPods, List.mem_cons, List.mem_singleton, List.mem_nil_iff, or_false,
      or_self] at hd
    rw [hd]
    simp
  have hk : NoString [("metadata", Value.map [("name", .str "bar")])] "kind" :=
    Or.inl rfl
  ⟨hs, List.cons_ne_nil _ _, hk,
    (missing_kind_aborts plainEnv twoPods [.ok (manifest "Pod" "baz")] _ hs
      (List.cons_ne_nil _ _) hk).2.1, by decide⟩

/-! ## The registry invariant -/

/-- C9: the registry starts empty; an iteration that completes either skips an empty
document and leaves registry and files untouched, or writes one file and raises the count
of that document's base-name by exactly one, every other count unchanged, so no count ever
decreases; and after the iterations of a stream processed to its end the count of
each base-name is the number of documents written with exactly that base-name, the counts
adding up to the number of files written. -/
theorem registry_invariant (env : Env) :
    initState.names = [] ∧
    (∀ s s1 d, body env s d = .next s1 →
      (d = .ok [] ∧ s1 = s) ∨
      ∃ data b p, d = .ok data ∧ data ≠ [] ∧ baseName? data = some b ∧
        s1.written = s.written ++ [(pathFor env b (Names.get s.names b), p)] ∧
        Names.get s1.names b = Names.get s.names b + 1 ∧
        ∀ c, c ≠ b → Names.get s1.names c = Names.get s.names c) ∧
    (∀ s s1 d, body env s d = .next s1 → ∀ c, Names.get s.names c ≤ Names.get s1.names c) ∧
    (∀ docs, NoEof docs → (run env docs).outcome = .done →
      (run env docs).final.written.length = (baseNames docs).length ∧
      (∀ b, Names.get (run env docs).final.names b = (baseNames docs).count b) ∧
      ((run env docs).final.names.map Prod.snd).sum = (run env docs).final.written.length) := by
  have step : ∀ s s1 d, body env s d = .next s1 →
      (d = .ok [] ∧ s1 = s) ∨
      ∃ data b p, d = .ok data ∧ data ≠ [] ∧ baseName? data = some b ∧
        s1.written = s.written ++ [(pathFor env b (Names.get s.names b), p)] ∧
        Names.get s1.names b = Names.get s.names b + 1 ∧
        ∀ c, c ≠ b → Names.get s1.names c = Names.get s.names c := by
    intro s s1 d h
    obtain ⟨data, rfl⟩ := body_next_decoded env s s1 d h
    rcases (body_next_iff env s s1 data).mp h with ⟨rfl, rfl⟩ | ⟨hne, p, b, _, hb, _, rfl⟩
    · exact Or.inl ⟨rfl, rfl⟩
    · refine Or.inr ⟨data, b, p, rfl, hne, hb, rfl, ?_, ?_⟩
      · simp [State.advance, Names.get_set]
      · intro c hc
        simp [State.advance, Names.get_set, hc]
  refine ⟨rfl, step, ?_, ?_⟩
  · intro s s1 d h c
    rcases step s s1 d h with ⟨_, rfl⟩ | ⟨data, b, p, _, _, _, _, hb, hc⟩
    · exact Nat.le_refl _
    · by_cases hcb : c = b
      · subst hcb
        omega
      · exact Nat.le_of_eq (hc c hcb).symm
  · intro docs hstream hdone
    have hdec := decoded_of_done env docs initState hstream hdone
    obtain ⟨_, _, _, h4, h5⟩ := loop_done env docs initState [] hdec (fun b => rfl) hdone
    obtain ⟨h6, _, h8⟩ := loop_written_length env docs initState hdec (fun b => rfl) hdone
    have hlen : (run env docs).final.written.length = (records docs).length := by
      simpa [run, initState] using h6
    refine ⟨?_, ?_, ?_⟩
    · rw [hlen, filterMap_length_of_map _ _ h8]
    · intro b
      simpa [run] using h4 b
    · rw [hlen]
      simpa [run, initState] using h5

/-! ## The index named by an error -/

theorem deriveName_error_index (i : Nat) (data : Record) (e : Fatal)
    (h : deriveName i data = .error e) : e.index? = some i := by
  unfold deriveName at h
  cases h1 : asString (data.get "kind") with
  | none =>
    simp only [h1, Except.error.injEq] at h
    rw [← h]
    rfl
  | some kind =>
    cases h2 : asMap (data.get "metadata") with
    | none =>
      simp only [h1, h2, Except.error.injEq] at h
      rw [← h]
      rfl
    | some metadata =>
      cases h3 : asString (metadata.get "name") with
      | none =>
        simp only [h1, h2, h3, Except.error.injEq] at h
        rw [← h]
        rfl
      | some n => simp [h1, h2, h3] at h

theorem body_fatal_index (env : Env) (s s1 : State) (d : Doc) (e : Fatal) (n : Nat)
    (h : body env s d = .fatal s1 e) (hn : e.index? = some n) : n = s.i := by
  cases d with
  | error err =>
    rw [body_error] at h
    split at h
    · simp at h
    · simp only [Step.fatal.injEq] at h
      rw [← h.2] at hn
      simpa [Fatal.index?] using hn.symm
  | ok data =>
    cases data with
    | nil => simp [body_empty] at h
    | cons kv data =>
      rw [body_cons] at h
      cases hm : env.marshal (kv :: data) with
      | error err =>
        simp only [hm, Step.fatal.injEq] at h
        rw [← h.2] at hn
        simpa [Fatal.index?] using hn.symm
      | ok p =>
        cases hd : deriveName s.i (kv :: data) with
        | error e2 =>
          simp only [hm, hd, Step.fatal.injEq] at h
          rw [← h.2, deriveName_error_index s.i _ e2 hd] at hn
          simpa using hn.symm
        | ok b =>
          cases hw : env.writeFile s.written (pathFor env b (Names.get s.names b)) p with
          | some err =>
            simp only [hm, hd, hw, Step.fatal.injEq] at h
            rw [← h.2] at hn
            simp [Fatal.index?] at hn
          | none => simp [hm, hd, hw] at h

theorem loop_fatal (env : Env) (docs : List Doc) :
    ∀ s e, (loop env docs s).outcome = .fatal e →
      ∃ pos d s1, docs[pos]? = some d ∧ (∀ d1 ∈ docs.take pos, Decoded d1) ∧
        (loop env (docs.take pos) s).outcome = .done ∧
        body env (loop env (docs.take pos) s).final d = .fatal s1 e ∧
        (loop env docs s).final = s1 := by
  induction docs with
  | nil => intro s e h; simp [loop] at h
  | cons d rest ih =>
    intro s e h
    rw [loop_cons] at h
    cases hb : body env s d with
    | next s1 =>
      simp only [hb] at h
      obtain ⟨pos, d2, s2, h1, h2, h3, h4, h5⟩ := ih s1 e h
      have hloop : ∀ l, loop env (d :: l) s = loop env l s1 := fun l => by
        rw [loop_cons, hb]
      refine ⟨pos + 1, d2, s2, by simpa using h1, ?_, ?_, ?_, ?_⟩
      · intro d1 hd1
        rw [List.take_succ_cons] at hd1
        rcases List.mem_cons.mp hd1 with rfl | hd1
        · exact body_next_decoded env s s1 _ hb
        · exact h2 d1 hd1
      · rw [List.take_succ_cons, hloop]
        exact h3
      · rw [List.take_succ_cons, hloop]
        exact h4
      · rw [hloop]
        exact h5
    | stop s1 => simp [hb] at h
    | fatal s1 e1 =>
      simp only [hb, Outcome.fatal.injEq] at h
      subst h
      refine ⟨0, d, s1, by simp, by simp, rfl, ?_, ?_⟩
      · simpa [loop] using hb
      · rw [loop_cons, hb]

theorem length_decoded (pre : List Doc) (h : ∀ d ∈ pre, Decoded d) :
    pre.length = (records pre).length + (pre.filter isEmptyDoc).length := by
  induction pre with
  | nil => rfl
  | cons d pre ih =>
    have ih2 := ih (fun d hd => h d (List.mem_cons_of_mem _ hd))
    obtain ⟨data, rfl⟩ := h d (List.mem_cons_self _ _)
    cases data with
    | nil =>
      rw [records_empty_cons, List.filter_cons_of_pos (by rfl)]
      simp only [List.length_cons]
      omega
    | cons kv data =>
      rw [records_of_ne_nil _ _ (List.cons_ne_nil kv data),
        List.filter_cons_of_neg (by simp [isEmptyDoc])]
      simp only [List.length_cons]
      omega

/-- C10: when the run aborts with a decode, serialization or schema error, the text passed
to `log.Fatalf` names, in decimal, the number of files written before the offending
document, which is the number of non-empty documents preceding it; the offending document's
0-based position in the stream is that number plus the number of empty documents preceding
it, so the index named and the position differ exactly when at least one empty document
precedes the offending one. -/
theorem error_index_counts_written (env : Env) (docs : List Doc) (e : Fatal)
    (hab : (run env docs).outcome = .fatal e) (hkind : ∀ err, e ≠ .write err) :
    ∃ (pos : Nat) (d : Doc) (s1 : State) (n : Nat), docs[pos]? = some d ∧
      (run env (docs.take pos)).outcome = .done ∧
      body env (run env (docs.take pos)).final d = .fatal s1 e ∧
      ((∃ err, e = .decode n err ∧
          e.message = "error reading yaml document " ++ fmtInt n ++ ": " ++ err) ∨
        (∃ err, e = .marshal n err ∧
          e.message = "error creating yaml for document " ++ fmtInt n ++ ": " ++ err) ∨
        (e = .noKind n ∧
          e.message
            = "no `Kind` field specified for yaml document " ++ fmtInt n ++ " in this file.") ∨
        (e = .noMetadata n ∧
          e.message
            = "no `Metadata` field specified for yaml document " ++ fmtInt n
              ++ " in this file.") ∨
        (e = .noName n ∧
          e.message
            = "no `Metadata.name` field specified for yaml document " ++ fmtInt n
              ++ " in this file.")) ∧
      n = (run env docs).final.written.length ∧
      n = (records (docs.take pos)).length ∧
      pos = n + ((docs.take pos).filter isEmptyDoc).length ∧
      (n ≠ pos ↔ ∃ d1 ∈ docs.take pos, isEmptyDoc d1 = true) := by
  obtain ⟨pos, d, s1, h1, h2, h3, h4, h5⟩ := loop_fatal env docs initState e hab
  obtain ⟨_, _, h6, _, _⟩ :=
    loop_done env (docs.take pos) initState [] h2 (fun b => rfl) h3
  obtain ⟨h7, _, _⟩ := loop_written_length env (docs.take pos) initState h2 (fun b => rfl) h3
  have hidx : ∀ i, e.index? = some i → i = (records (docs.take pos)).length := by
    intro i hi
    rw [body_fatal_index env _ s1 d e i h4 hi, h6]
    simp [initState]
  have hw : (run env docs).final.written.length = (records (docs.take pos)).length := by
    unfold run
    rw [h5, (body_fatal_written env _ s1 d e h4).1, h7]
    simp [initState]
  have hpos : pos = (records (docs.take pos)).length
      + ((docs.take pos).filter isEmptyDoc).length := by
    have hl := length_decoded (docs.take pos) h2
    have hlt : pos < docs.length := by
      by_contra hge
      rw [List.getElem?_eq_none (by omega)] at h1
      simp at h1
    rw [List.length_take, Nat.min_eq_left (by omega)] at hl
    omega
  refine ⟨pos, d, s1, (records (docs.take pos)).length, h1, h3, h4, ?_, hw.symm, rfl, hpos, ?_⟩
  · cases e with
    | decode i err =>
      have hi := hidx i rfl
      subst hi
      exact Or.inl ⟨err, rfl, rfl⟩
    | marshal i err =>
      have hi := hidx i rfl
      subst hi
      exact Or.inr (Or.inl ⟨err, rfl, rfl⟩)
    | noKind i =>
      have hi := hidx i rfl
      subst hi
      exact Or.inr (Or.inr (Or.inl ⟨rfl, rfl⟩))
    | noMetadata i =>
      have hi := hidx i rfl
      subst hi
      exact Or.inr (Or.inr (Or.inr (Or.inl ⟨rfl, rfl⟩)))
    | noName i =>
      have hi := hidx i rfl
      subst hi
      exact Or.inr (Or.inr (Or.inr (Or.inr ⟨rfl, rfl⟩)))
    | write err => exact absurd rfl (hkind err)
  · constructor
    · intro hne
      have hlen : 0 < ((docs.take pos).filter isEmptyDoc).length := by omega
      obtain ⟨d1, hd1⟩ := List.exists_mem_of_length_pos hlen
      exact ⟨d1, (List.mem_filter.mp hd1).1, (List.mem_filter.mp hd1).2⟩
    · rintro ⟨d1, hd1, he1⟩
      have hmem : d1 ∈ (docs.take pos).filter isEmptyDoc := List.mem_filter.mpr ⟨hd1, he1⟩
      have hlen : 0 < ((docs.take pos).filter isEmptyDoc).length :=
        List.length_pos_of_mem hmem
      omega

/-- C10 at a stream whose third document lacks `kind`, after one manifest and one empty
document: the message names index 1, the document stands at position 2. -/
theorem error_index_counts_written_witness :
    (run plainEnv skippedThenBad).outcome = .fatal (.noKind 1) ∧
      (∀ err, Fatal.noKind 1 ≠ .write err) ∧
      Fatal.message (.noKind 1)
        = "no `Kind` field specified for yaml document 1 in this file." ∧
      skippedThenBad[2]? = some (.ok [("metadata", .map [("name", .str "bar")])]) ∧
      ∃ (pos : Nat) (d : Doc) (s1 : State) (n : Nat), skippedThenBad[pos]? = some d ∧
        (run plainEnv (skippedThenBad.take pos)).outcome = .done ∧
        body plainEnv (run plainEnv (skippedThenBad.take pos)).final d
          = .fatal s1 (.noKind 1) ∧
        ((∃ err, Fatal.noKind 1 = .decode n err ∧
            Fatal.message (.noKind 1)
              = "error reading yaml document " ++ fmtInt n ++ ": " ++ err) ∨
          (∃ err, Fatal.noKind 1 = .marshal n err ∧
            Fatal.message (.noKind 1)
              = "error creating yaml for document " ++ fmtInt n ++ ": " ++ err) ∨
          (Fatal.noKind 1 = .noKind n ∧
            Fatal.message (.noKind 1)
              = "no `Kind` field specified for yaml document " ++ fmtInt n
                ++ " in this file.") ∨
          (Fatal.noKind 1 = .noMetadata n ∧
            Fatal.message (.noKind 1)
              = "no `Metadata` field specified for yaml document " ++ fmtInt n
                ++ " in this file.") ∨
          (Fatal.noKind 1 = .noName n ∧
            Fatal.message (.noKind 1)
              = "no `Metadata.name` field specified for yaml document " ++ fmtInt n
                ++ " in this file.")) ∧
        n = (run plainEnv skippedThenBad).final.written.length ∧
        n = (records (skippedThenBad.take pos)).length ∧
        pos = n + ((skippedThenBad.take pos).filter isEmptyDoc).length ∧
        (n ≠ pos ↔ ∃ d1 ∈ skippedThenBad.take pos, isEmptyDoc d1 = true) :=
  ⟨by decide, fun _ h => Fatal.noConfusion h, by decide, rfl,
    error_index_counts_written plainEnv skippedThenBad (.noKind 1) (by decide)
      (fun _ h => Fatal.noConfusion h)⟩

/-! ## Content of the written files -/

theorem loop_written_prefix (env : Env) (docs : List Doc) :
    ∀ s, ∃ ws : List (String × String), (loop env docs s).final.written = s.written ++ ws ∧
      ∀ (k : Nat) (w : String × String), ws[k]? = some w →
        ∃ data b c, (records docs)[k]? = some data ∧ baseName? data = some b ∧
          w.1 = pathFor env b c ∧ env.marshal data = .ok w.2 := by
  induction docs with
  | nil =>
    intro s
    exact ⟨[], by simp [loop], fun k w h => by simp at h⟩
  | cons d rest ih =>
    intro s
    rw [loop_cons]
    cases hb : body env s d with
    | next s1 =>
      obtain ⟨data, rfl⟩ := body_next_decoded env s s1 d hb
      obtain ⟨ws, h1, h2⟩ := ih s1
      rcases (body_next_iff env s s1 data).mp hb with ⟨rfl, rfl⟩ | ⟨hne, p, b, hm, hbn, _, rfl⟩
      · exact ⟨ws, h1, by simpa [records_empty_cons] using h2⟩
      · refine ⟨(pathFor env b (Names.get s.names b), p) :: ws, ?_, ?_⟩
        · simp only [h1]
          simp [State.advance]
        · intro k w hk
          rw [records_of_ne_nil data rest hne]
          cases k with
          | zero =>
            simp only [List.getElem?_cons_zero, Option.some.injEq] at hk
            subst hk
            exact ⟨data, b, _, by simp, hbn, rfl, hm⟩
          | succ k =>
            simp only [List.getElem?_cons_succ] at hk ⊢
            exact h2 k w hk
    | stop s1 =>
      refine ⟨[], ?_, fun k w h => by simp at h⟩
      simp [(body_stop env s s1 d hb).1]
    | fatal s1 e =>
      refine ⟨[], ?_, fun k w h => by simp at h⟩
      simp [(body_fatal_written env s s1 d e hb).1]

/-- The file written in position `k` of a run holds the serialization of the full record of
the non-empty document in position `k`, the very record from which `kind` and
`metadata.name` were read to name the file. -/
theorem written_content_is_marshal (env : Env) (docs : List Doc) :
    ∀ (k : Nat) (w : String × String), (run env docs).final.written[k]? = some w →
      ∃ data b c, (records docs)[k]? = some data ∧ Except.ok data ∈ docs ∧ data ≠ [] ∧
        (∀ i, deriveName i data = .ok b) ∧ w.1 = env.outDir ++ "/" ++ fileName env b c ∧
        env.marshal data = .ok w.2 := by
  intro k w hw
  obtain ⟨ws, h1, h2⟩ := loop_written_prefix env docs initState
  have hw2 : ws[k]? = some w := by
    have : (run env docs).final.written = ws := by simpa [run, initState] using h1
    rw [this] at hw
    exact hw
  obtain ⟨data, b, c, h3, h4, h5, h6⟩ := h2 k w hw2
  have hmem := mem_records docs data (List.getElem?_mem h3)
  exact ⟨data, b, c, h3, hmem.2, hmem.1, fun i => (deriveName_eq_ok_iff i data b).mpr h4, h5,
    h6⟩

/-! ## Piped input -/

/-- C7: with standard input piped, an existing output directory and no positional argument,
`Args` passes both checks and then indexes `args[0]` of the empty list: the callback ends in
an index-out-of-range panic instead of accepting the invocation, as would the input
acquisition of `Run`; with one positional argument the invocation is refused as ambiguous. -/
theorem piped_input_without_argument_panics :
    Args pipedCli [] = .indexOutOfRange 0 0 ∧
    Args pipedCli [] ≠ .returned none ∧
    Run pipedCli plainEnv (fun _ => []) [] = .indexOutOfRange 0 0 ∧
    Args pipedCli ["all.yaml"] = .fatal "stdin is a pipe but file also given" := by
  decide

end K8split
